import Mathlib

/-!
Verification of the `bt` behavior-tree package.

Each Go `Behavior` (interface with `Reset()` and `Execute() State`) is
embedded as a state machine: a type `σ` of internal states together with
`reset : σ → σ` and `exec : σ → State × σ`.  Composites own their
children as pairs of a machine and that child's current state, plus the
cursor (`index`) or completed-index set (`complete`) that the Go structs
keep as mutable fields; `Execute` returns the outcome together with the
updated node, mirroring the in-place mutation of the Go code.
-/

namespace bt

/-- `State` from behavior.go: the four-valued outcome enumeration, with
`Unknown` as the zero value. -/
inductive State where
  | Unknown
  | Running
  | Success
  | Failure
deriving DecidableEq

/-- A `Behavior` over internal state `σ`: the Go interface
`Reset(); Execute() State`, with the hidden mutable state made explicit. -/
structure Behavior (σ : Type) where
  reset : σ → σ
  exec : σ → State × σ

/-- `Action` from behavior.go wraps a nullary Go closure returning a `State`.
Since `Reset` is a noop and `Execute` takes no input, an `Action`'s
observable behavior is exactly the function `f` from its call count to the
returned `State`; the internal state is the call counter. -/
def Action (f : Nat → State) : Behavior Nat :=
  { reset := fun i => i
    exec := fun i => (f i, i + 1) }

/-- `Conditional` from behavior.go: a boolean closure; `Execute` maps
`true` to `Success` and `false` to `Failure`; `Reset` is a noop. -/
def Conditional (f : Nat → Bool) : Behavior Nat :=
  { reset := fun i => i
    exec := fun i => (if f i then State.Success else State.Failure, i + 1) }

/-- `composite` from behavior.go: an ordered child list plus the cursor
`index` (zero-initialized at construction). -/
structure composite (σ : Type) where
  nodes : List (Behavior σ × σ)
  index : Nat

/-- `composite.Reset`: moves the index to 0 and resets all child Behavior. -/
def composite.Reset (c : composite σ) : composite σ :=
  { nodes := c.nodes.map fun p => (p.1, p.1.reset p.2)
    index := 0 }

/-- `Sequence` constructor: children with cursor 0. -/
def Sequence (bs : List (Behavior σ × σ)) : composite σ :=
  { nodes := bs, index := 0 }

/-- `Selection` constructor: children with cursor 0. -/
def Selection (bs : List (Behavior σ × σ)) : composite σ :=
  { nodes := bs, index := 0 }

/-- The loop body of `sequence.Execute`
(`for ; s.index < len(s.nodes); s.index++`), acting on the child suffix
starting at the cursor.  Returns the outcome, the updated suffix, and how
many positions the cursor advanced (one per `Success` child; the loop
stops without advancing past a `Running`/`Failure`/`Unknown` child). -/
def sequence.go : List (Behavior σ × σ) → State × List (Behavior σ × σ) × Nat
  | [] => (State.Success, [], 0)
  | (b, s) :: rest =>
    match b.exec s with
    | (State.Running, s') => (State.Running, (b, s') :: rest, 0)
    | (State.Success, s') =>
      let out := sequence.go rest
      (out.1, (b, s') :: out.2.1, out.2.2 + 1)
    | (State.Failure, s') => (State.Failure, (b, s') :: rest, 0)
    | (State.Unknown, s') => (State.Unknown, (b, s') :: rest, 0)

/-- `sequence.Execute` from behavior.go: run the loop from the stored
cursor; children before the cursor are untouched. -/
def sequence.Execute (c : composite σ) : State × composite σ :=
  let out := sequence.go (c.nodes.drop c.index)
  (out.1, { nodes := c.nodes.take c.index ++ out.2.1, index := c.index + out.2.2 })

/-- The loop body of `selection.Execute`: dual of `sequence.go`, the
cursor advances past `Failure` children and stops on
`Running`/`Success`/`Unknown`. -/
def selection.go : List (Behavior σ × σ) → State × List (Behavior σ × σ) × Nat
  | [] => (State.Failure, [], 0)
  | (b, s) :: rest =>
    match b.exec s with
    | (State.Running, s') => (State.Running, (b, s') :: rest, 0)
    | (State.Success, s') => (State.Success, (b, s') :: rest, 0)
    | (State.Failure, s') =>
      let out := selection.go rest
      (out.1, (b, s') :: out.2.1, out.2.2 + 1)
    | (State.Unknown, s') => (State.Unknown, (b, s') :: rest, 0)

/-- `selection.Execute` from behavior.go. -/
def selection.Execute (c : composite σ) : State × composite σ :=
  let out := selection.go (c.nodes.drop c.index)
  (out.1, { nodes := c.nodes.take c.index ++ out.2.1, index := c.index + out.2.2 })

/-- `pcomposite` from behavior.go: children plus the completed-index set
(the Go `map[int]bool`, embedded as the list of indices mapped to true). -/
structure pcomposite (σ : Type) where
  nodes : List (Behavior σ × σ)
  complete : List Nat

/-- `pcomposite.Reset`: clears the completed set and resets all children. -/
def pcomposite.Reset (c : pcomposite σ) : pcomposite σ :=
  { nodes := c.nodes.map fun p => (p.1, p.1.reset p.2)
    complete := [] }

/-- `PSequence` constructor: children with an empty completed set. -/
def PSequence (bs : List (Behavior σ × σ)) : pcomposite σ :=
  { nodes := bs, complete := [] }

/-- `PSelection` constructor: children with an empty completed set. -/
def PSelection (bs : List (Behavior σ × σ)) : pcomposite σ :=
  { nodes := bs, complete := [] }

/-- The loop body of `psequence.Execute` (`for i, n := range s.nodes`):
`i` is the index of the head child, `running` the flag accumulated so
far.  Completed children are skipped; `Success` marks the index
completed; `Running` sets the flag; `Failure`/`Unknown` return
immediately, leaving the remaining children unexecuted. -/
def psequence.go : List (Behavior σ × σ) → List Nat → Nat → Bool →
    State × List (Behavior σ × σ) × List Nat
  | [], complete, _, running =>
    (if running then State.Running else State.Success, [], complete)
  | (b, s) :: rest, complete, i, running =>
    if i ∈ complete then
      let out := psequence.go rest complete (i + 1) running
      (out.1, (b, s) :: out.2.1, out.2.2)
    else
      match b.exec s with
      | (State.Success, s') =>
        let out := psequence.go rest (i :: complete) (i + 1) running
        (out.1, (b, s') :: out.2.1, out.2.2)
      | (State.Running, s') =>
        let out := psequence.go rest complete (i + 1) true
        (out.1, (b, s') :: out.2.1, out.2.2)
      | (State.Failure, s') => (State.Failure, (b, s') :: rest, complete)
      | (State.Unknown, s') => (State.Unknown, (b, s') :: rest, complete)

/-- `psequence.Execute` from behavior.go. -/
def psequence.Execute (c : pcomposite σ) : State × pcomposite σ :=
  let out := psequence.go c.nodes c.complete 0 false
  (out.1, { nodes := out.2.1, complete := out.2.2 })

/-- The loop body of `pselection.Execute`: dual of `psequence.go` with
`Failure` marking completion and `Success` aborting the pass. -/
def pselection.go : List (Behavior σ × σ) → List Nat → Nat → Bool →
    State × List (Behavior σ × σ) × List Nat
  | [], complete, _, running =>
    (if running then State.Running else State.Failure, [], complete)
  | (b, s) :: rest, complete, i, running =>
    if i ∈ complete then
      let out := pselection.go rest complete (i + 1) running
      (out.1, (b, s) :: out.2.1, out.2.2)
    else
      match b.exec s with
      | (State.Failure, s') =>
        let out := pselection.go rest (i :: complete) (i + 1) running
        (out.1, (b, s') :: out.2.1, out.2.2)
      | (State.Running, s') =>
        let out := pselection.go rest complete (i + 1) true
        (out.1, (b, s') :: out.2.1, out.2.2)
      | (State.Success, s') => (State.Success, (b, s') :: rest, complete)
      | (State.Unknown, s') => (State.Unknown, (b, s') :: rest, complete)

/-- `pselection.Execute` from behavior.go. -/
def pselection.Execute (c : pcomposite σ) : State × pcomposite σ :=
  let out := pselection.go c.nodes c.complete 0 false
  (out.1, { nodes := out.2.1, complete := out.2.2 })

/-- `Invert` from behavior.go: a decorator swapping Success and Failure.
The Go `decorator.Execute` runs the child once and transforms the result;
the decorator carries no state of its own. -/
def Invert (b : Behavior σ) : Behavior σ :=
  { reset := b.reset
    exec := fun s =>
      match b.exec s with
      | (State.Running, t) => (State.Running, t)
      | (State.Success, t) => (State.Failure, t)
      | (State.Failure, t) => (State.Success, t)
      | (State.Unknown, t) => (State.Unknown, t) }

/-- `Repeat` from behavior.go: Success and Failure reset the child and
become Running; Running passes through; Unknown passes through. -/
def Repeat (b : Behavior σ) : Behavior σ :=
  { reset := b.reset
    exec := fun s =>
      match b.exec s with
      | (State.Running, t) => (State.Running, t)
      | (State.Success, t) => (State.Running, b.reset t)
      | (State.Failure, t) => (State.Running, b.reset t)
      | (State.Unknown, t) => (State.Unknown, t) }

/-- `ForceSuccess` from behavior.go. -/
def ForceSuccess (b : Behavior σ) : Behavior σ :=
  { reset := b.reset
    exec := fun s =>
      match b.exec s with
      | (State.Running, t) => (State.Running, t)
      | (State.Success, t) => (State.Success, t)
      | (State.Failure, t) => (State.Success, t)
      | (State.Unknown, t) => (State.Unknown, t) }

/-- `ForceFailure` from behavior.go. -/
def ForceFailure (b : Behavior σ) : Behavior σ :=
  { reset := b.reset
    exec := fun s =>
      match b.exec s with
      | (State.Running, t) => (State.Running, t)
      | (State.Success, t) => (State.Failure, t)
      | (State.Failure, t) => (State.Failure, t)
      | (State.Unknown, t) => (State.Unknown, t) }

/-- `Until` from behavior.go: runs the child repeatedly until Success;
Failure resets the child and becomes Running. -/
def Until (b : Behavior σ) : Behavior σ :=
  { reset := b.reset
    exec := fun s =>
      match b.exec s with
      | (State.Running, t) => (State.Running, t)
      | (State.Success, t) => (State.Success, t)
      | (State.Failure, t) => (State.Running, b.reset t)
      | (State.Unknown, t) => (State.Unknown, t) }

/-- `While` from behavior.go: runs the child repeatedly until Failure;
Success resets the child and becomes Running. -/
def While (b : Behavior σ) : Behavior σ :=
  { reset := b.reset
    exec := fun s =>
      match b.exec s with
      | (State.Running, t) => (State.Running, t)
      | (State.Success, t) => (State.Running, b.reset t)
      | (State.Failure, t) => (State.Failure, t)
      | (State.Unknown, t) => (State.Unknown, t) }

/-- `Recorded` from behavior_test.go: an `Action` cycling through the
given script, one entry per invocation (the counter is not cleared by
`Reset`, since `Action.Reset` is a noop). -/
def Recorded (states : List State) : Behavior Nat :=
  Action fun i => states.getD (i % states.length) State.Unknown

/-- `testBehavior` from behavior_test.go: wraps a behavior and counts
`Execute` and `Reset` calls.  State: (base state, calls, resets). -/
def testBehavior (b : Behavior σ) : Behavior (σ × Nat × Nat) :=
  { reset := fun p => (b.reset p.1, p.2.1, p.2.2 + 1)
    exec := fun p => ((b.exec p.1).1, ((b.exec p.1).2, p.2.1 + 1, p.2.2)) }

/-- Tick a step function `n` times from state `s`, collecting the
returned outcomes (the test harness's repeated `b.Execute()` loop). -/
def run (exec : α → State × α) (s : α) : Nat → List State × α
  | 0 => ([], s)
  | n + 1 =>
    let o := exec s
    let o2 := run exec o.2 n
    (o.1 :: o2.1, o2.2)

/-! ## Specification-level descriptions of the serial composites

The following functions transcribe the prose of spec §4.2: the outcome a
serial composite produces from the list of outcomes its children would
report this tick, and how far the cursor advances.  The claim theorems
relate `sequence.Execute`/`selection.Execute` to these functions. -/

/-- The outcome each child in `l` would report if executed now, in order. -/
def resps (l : List (Behavior σ × σ)) : List State :=
  l.map fun p => (p.1.exec p.2).1

/-- The effect of one `Execute` call on a child pair (machine unchanged,
state stepped once). -/
def execUpdate (p : Behavior σ × σ) : Behavior σ × σ :=
  (p.1, (p.1.exec p.2).2)

/-- Spec §4.2 (Sequence): Running/Failure/Unknown stop with that value,
Success continues, exhaustion yields Success. -/
def seqFold : List State → State
  | [] => State.Success
  | State.Success :: rest => seqFold rest
  | State.Running :: _ => State.Running
  | State.Failure :: _ => State.Failure
  | State.Unknown :: _ => State.Unknown

/-- Spec §4.2 (Sequence): the cursor advances one position per leading
Success and stays at the first non-Success child. -/
def seqAdv : List State → Nat
  | [] => 0
  | State.Success :: rest => seqAdv rest + 1
  | State.Running :: _ => 0
  | State.Failure :: _ => 0
  | State.Unknown :: _ => 0

/-- Spec §4.2 (Selection): Running/Success/Unknown stop with that value,
Failure continues, exhaustion yields Failure. -/
def selFold : List State → State
  | [] => State.Failure
  | State.Failure :: rest => selFold rest
  | State.Running :: _ => State.Running
  | State.Success :: _ => State.Success
  | State.Unknown :: _ => State.Unknown

/-- Spec §4.2 (Selection): the cursor advances one position per leading
Failure and stays at the first non-Failure child. -/
def selAdv : List State → Nat
  | [] => 0
  | State.Failure :: rest => selAdv rest + 1
  | State.Running :: _ => 0
  | State.Success :: _ => 0
  | State.Unknown :: _ => 0

theorem seqAdv_le (rs : List State) : seqAdv rs ≤ rs.length := by
  induction rs with
  | nil => simp [seqAdv]
  | cons r rest ih => cases r <;> simp [seqAdv] ; omega

theorem selAdv_le (rs : List State) : selAdv rs ≤ rs.length := by
  induction rs with
  | nil => simp [selAdv]
  | cons r rest ih => cases r <;> simp [selAdv] ; omega

theorem seqFold_success (rs : List State) (h : seqFold rs = State.Success) :
    seqAdv rs = rs.length := by
  induction rs with
  | nil => rfl
  | cons r rest ih =>
    cases r <;> simp_all [seqFold, seqAdv]

theorem selFold_failure (rs : List State) (h : selFold rs = State.Failure) :
    selAdv rs = rs.length := by
  induction rs with
  | nil => rfl
  | cons r rest ih =>
    cases r <;> simp_all [selFold, selAdv]

/-- Loop invariant of `sequence.go`: outcome, advancement, length
preservation, and the pointwise effect on the child suffix (children up
to and including the stopping child are executed once; the rest are
untouched). -/
theorem sequence_go_spec (l : List (Behavior σ × σ)) :
    (sequence.go l).1 = seqFold (resps l)
    ∧ (sequence.go l).2.2 = seqAdv (resps l)
    ∧ (sequence.go l).2.1.length = l.length
    ∧ ∀ p, (sequence.go l).2.1[p]? =
        if p ≤ seqAdv (resps l) then (l[p]?).map execUpdate else l[p]? := by
  induction l with
  | nil =>
    refine ⟨rfl, rfl, rfl, fun p => ?_⟩
    simp [sequence.go, resps, seqAdv]
  | cons hd tl ih =>
    obtain ⟨b, s⟩ := hd
    obtain ⟨ih1, ih2, ih3, ih4⟩ := ih
    rcases hx : b.exec s with ⟨st, s2⟩
    have hr : resps ((b, s) :: tl) = st :: resps tl := by
      simp [resps, hx]
    cases st
    case Unknown =>
      have hgo : sequence.go ((b, s) :: tl) = (State.Unknown, (b, s2) :: tl, 0) := by
        simp [sequence.go, hx]
      refine ⟨by simp [hgo, hr, seqFold], by simp [hgo, hr, seqAdv], by simp [hgo], fun p => ?_⟩
      rw [hgo, hr]
      match p with
      | 0 => simp [seqAdv, execUpdate, hx]
      | p + 1 => simp [seqAdv]
    case Running =>
      have hgo : sequence.go ((b, s) :: tl) = (State.Running, (b, s2) :: tl, 0) := by
        simp [sequence.go, hx]
      refine ⟨by simp [hgo, hr, seqFold], by simp [hgo, hr, seqAdv], by simp [hgo], fun p => ?_⟩
      rw [hgo, hr]
      match p with
      | 0 => simp [seqAdv, execUpdate, hx]
      | p + 1 => simp [seqAdv]
    case Failure =>
      have hgo : sequence.go ((b, s) :: tl) = (State.Failure, (b, s2) :: tl, 0) := by
        simp [sequence.go, hx]
      refine ⟨by simp [hgo, hr, seqFold], by simp [hgo, hr, seqAdv], by simp [hgo], fun p => ?_⟩
      rw [hgo, hr]
      match p with
      | 0 => simp [seqAdv, execUpdate, hx]
      | p + 1 => simp [seqAdv]
    case Success =>
      have hgo : sequence.go ((b, s) :: tl) =
          ((sequence.go tl).1, (b, s2) :: (sequence.go tl).2.1, (sequence.go tl).2.2 + 1) := by
        simp [sequence.go, hx]
      refine ⟨by simp [hgo, hr, seqFold, ih1], by simp [hgo, hr, seqAdv, ih2],
        by simp [hgo, ih3], fun p => ?_⟩
      rw [hgo, hr]
      match p with
      | 0 => simp [seqAdv, execUpdate, hx]
      | p + 1 =>
        simp only [seqAdv, List.getElem?_cons_succ]
        rw [ih4 p]
        by_cases hc : p ≤ seqAdv (resps tl)
        · rw [if_pos hc, if_pos (by omega)]
        · rw [if_neg hc, if_neg (by omega)]

/-- Loop invariant of `selection.go`, dual to `sequence_go_spec`. -/
theorem selection_go_spec (l : List (Behavior σ × σ)) :
    (selection.go l).1 = selFold (resps l)
    ∧ (selection.go l).2.2 = selAdv (resps l)
    ∧ (selection.go l).2.1.length = l.length
    ∧ ∀ p, (selection.go l).2.1[p]? =
        if p ≤ selAdv (resps l) then (l[p]?).map execUpdate else l[p]? := by
  induction l with
  | nil =>
    refine ⟨rfl, rfl, rfl, fun p => ?_⟩
    simp [selection.go, resps, selAdv]
  | cons hd tl ih =>
    obtain ⟨b, s⟩ := hd
    obtain ⟨ih1, ih2, ih3, ih4⟩ := ih
    rcases hx : b.exec s with ⟨st, s2⟩
    have hr : resps ((b, s) :: tl) = st :: resps tl := by
      simp [resps, hx]
    cases st
    case Unknown =>
      have hgo : selection.go ((b, s) :: tl) = (State.Unknown, (b, s2) :: tl, 0) := by
        simp [selection.go, hx]
      refine ⟨by simp [hgo, hr, selFold], by simp [hgo, hr, selAdv], by simp [hgo], fun p => ?_⟩
      rw [hgo, hr]
      match p with
      | 0 => simp [selAdv, execUpdate, hx]
      | p + 1 => simp [selAdv]
    case Running =>
      have hgo : selection.go ((b, s) :: tl) = (State.Running, (b, s2) :: tl, 0) := by
        simp [selection.go, hx]
      refine ⟨by simp [hgo, hr, selFold], by simp [hgo, hr, selAdv], by simp [hgo], fun p => ?_⟩
      rw [hgo, hr]
      match p with
      | 0 => simp [selAdv, execUpdate, hx]
      | p + 1 => simp [selAdv]
    case Success =>
      have hgo : selection.go ((b, s) :: tl) = (State.Success, (b, s2) :: tl, 0) := by
        simp [selection.go, hx]
      refine ⟨by simp [hgo, hr, selFold], by simp [hgo, hr, selAdv], by simp [hgo], fun p => ?_⟩
      rw [hgo, hr]
      match p with
      | 0 => simp [selAdv, execUpdate, hx]
      | p + 1 => simp [selAdv]
    case Failure =>
      have hgo : selection.go ((b, s) :: tl) =
          ((selection.go tl).1, (b, s2) :: (selection.go tl).2.1, (selection.go tl).2.2 + 1) := by
        simp [selection.go, hx]
      refine ⟨by simp [hgo, hr, selFold, ih1], by simp [hgo, hr, selAdv, ih2],
        by simp [hgo, ih3], fun p => ?_⟩
      rw [hgo, hr]
      match p with
      | 0 => simp [selAdv, execUpdate, hx]
      | p + 1 =>
        simp only [selAdv, List.getElem?_cons_succ]
        rw [ih4 p]
        by_cases hc : p ≤ selAdv (resps tl)
        · rw [if_pos hc, if_pos (by omega)]
        · rw [if_neg hc, if_neg (by omega)]

/-- Reassembling a serial composite after its loop: the pointwise effect
of `Execute` on the full child list, given the loop's pointwise effect on
the suffix from the cursor. -/
theorem serial_assemble (L : List (Behavior σ × σ)) (idx : Nat)
    (suf : List (Behavior σ × σ)) (adv : Nat)
    (hlen : suf.length = (L.drop idx).length)
    (hpt : ∀ p, suf[p]? =
      if p ≤ adv then ((L.drop idx)[p]?).map execUpdate else (L.drop idx)[p]?) :
    ∀ j, (L.take idx ++ suf)[j]? =
      if idx ≤ j ∧ j ≤ idx + adv then (L[j]?).map execUpdate else L[j]? := by
  intro j
  have htl : (L.take idx).length = min idx L.length := List.length_take idx L
  by_cases hj : j < (L.take idx).length
  · rw [List.getElem?_append_left hj]
    rw [List.getElem?_take_of_lt (by omega)]
    rw [if_neg (by omega)]
  · rw [List.getElem?_append_right (by omega)]
    by_cases hin : idx ≤ L.length
    · have hmin : (L.take idx).length = idx := by omega
      rw [hmin]
      rw [hpt (j - idx)]
      rw [List.getElem?_drop]
      have hj' : idx ≤ j := by omega
      have : idx + (j - idx) = j := by omega
      rw [this]
      by_cases hc : j - idx ≤ adv
      · rw [if_pos hc, if_pos (by omega)]
      · rw [if_neg hc, if_neg (by omega)]
    · have hmin : (L.take idx).length = L.length := by omega
      have hdrop : (L.drop idx).length = 0 := by
        rw [List.length_drop]; omega
      have hnone : suf[j - (L.take idx).length]? = none := by
        apply List.getElem?_eq_none
        omega
      have hLnone : L[j]? = none := by
        apply List.getElem?_eq_none
        omega
      rw [hnone, hLnone]
      by_cases hc : idx ≤ j ∧ j ≤ idx + adv
      · rw [if_pos hc]; rfl
      · rw [if_neg hc]

/-- C1: executing a Sequence iterates children from the stored cursor; a
Running child stops iteration with the cursor retained at its index and
result Running; a Success child advances the cursor and iteration
continues within the same tick; a Failure (resp. Unknown) child stops
iteration with result Failure (resp. Unknown); exhausting the children
yields Success, and in particular an empty Sequence returns Success.
Formally: the result is `seqFold` of the outcomes the children from the
cursor would report, the cursor advances by exactly the number of
leading Successes (hence stays at a stopping child's index), and exactly
the children from the cursor through the stopping child are executed
once, all others being untouched. -/
theorem sequence_execute_characterization (σ : Type) (c : composite σ) :
    (sequence.Execute c).1 = seqFold (resps (c.nodes.drop c.index))
    ∧ (sequence.Execute c).2.index = c.index + seqAdv (resps (c.nodes.drop c.index))
    ∧ (∀ j, (sequence.Execute c).2.nodes[j]? =
        if c.index ≤ j ∧ j ≤ c.index + seqAdv (resps (c.nodes.drop c.index))
        then (c.nodes[j]?).map execUpdate
        else c.nodes[j]?)
    ∧ (sequence.Execute (Sequence ([] : List (Behavior σ × σ)))).1 = State.Success := by
  obtain ⟨h1, h2, h3, h4⟩ := sequence_go_spec (c.nodes.drop c.index)
  refine ⟨h1, by simp [sequence.Execute, h2], ?_, rfl⟩
  intro j
  have := serial_assemble c.nodes c.index (sequence.go (c.nodes.drop c.index)).2.1
    (seqAdv (resps (c.nodes.drop c.index))) (by rw [h3]) h4 j
  simpa [sequence.Execute] using this

/-- C2: Selection.Execute is the exact dual of Sequence.Execute: a
Success child stops iteration and returns Success; a Failure child
advances the cursor and iteration continues in the same tick; Running
and Unknown stop with that value (cursor retained on the stopping
child); exhausting the children yields Failure, and in particular an
empty Selection returns Failure.  Formalized dually to C1 via `selFold`
and `selAdv`. -/
theorem selection_execute_characterization (σ : Type) (c : composite σ) :
    (selection.Execute c).1 = selFold (resps (c.nodes.drop c.index))
    ∧ (selection.Execute c).2.index = c.index + selAdv (resps (c.nodes.drop c.index))
    ∧ (∀ j, (selection.Execute c).2.nodes[j]? =
        if c.index ≤ j ∧ j ≤ c.index + selAdv (resps (c.nodes.drop c.index))
        then (c.nodes[j]?).map execUpdate
        else c.nodes[j]?)
    ∧ (selection.Execute (Selection ([] : List (Behavior σ × σ)))).1 = State.Failure := by
  obtain ⟨h1, h2, h3, h4⟩ := selection_go_spec (c.nodes.drop c.index)
  refine ⟨h1, by simp [selection.Execute, h2], ?_, rfl⟩
  intro j
  have := serial_assemble c.nodes c.index (selection.go (c.nodes.drop c.index)).2.1
    (selAdv (resps (c.nodes.drop c.index))) (by rw [h3]) h4 j
  simpa [selection.Execute] using this

/-- A serial composite's `Execute` never changes the number of children. -/
theorem sequence_Execute_length (c : composite σ) :
    (sequence.Execute c).2.nodes.length = c.nodes.length := by
  obtain ⟨-, -, h3, -⟩ := sequence_go_spec (c.nodes.drop c.index)
  simp only [sequence.Execute, List.length_append, List.length_take, h3, List.length_drop]
  omega

theorem selection_Execute_length (c : composite σ) :
    (selection.Execute c).2.nodes.length = c.nodes.length := by
  obtain ⟨-, -, h3, -⟩ := selection_go_spec (c.nodes.drop c.index)
  simp only [selection.Execute, List.length_append, List.length_take, h3, List.length_drop]
  omega

/-- With the cursor at or past the end, `sequence.Execute` is a vacuous
Success leaving the composite untouched. -/
theorem sequence_Execute_of_le (c : composite σ) (h : c.nodes.length ≤ c.index) :
    sequence.Execute c = (State.Success, c) := by
  have hd : c.nodes.drop c.index = [] := List.drop_eq_nil_of_le h
  have ht : c.nodes.take c.index = c.nodes := List.take_of_length_le h
  simp [sequence.Execute, hd, ht, sequence.go]

/-- With the cursor at or past the end, `selection.Execute` is a vacuous
Failure leaving the composite untouched. -/
theorem selection_Execute_of_le (c : composite σ) (h : c.nodes.length ≤ c.index) :
    selection.Execute c = (State.Failure, c) := by
  have hd : c.nodes.drop c.index = [] := List.drop_eq_nil_of_le h
  have ht : c.nodes.take c.index = c.nodes := List.take_of_length_le h
  simp [selection.Execute, hd, ht, selection.go]

/-- C5 counterexample: `Sequence(Recorded(Failure, Running))` returns the
terminal outcome Failure on its first tick, yet the very next `Execute`
call (no reset) returns Running, not the vacuous Success the claim
asserts for every terminal outcome: after a Failure the cursor stays at
the failing child, which is simply re-executed. -/
theorem serial_stale_cursor_counterexample :
    (sequence.Execute (Sequence [(Recorded [State.Failure, State.Running], 0)])).1
      = State.Failure
    ∧ (sequence.Execute (sequence.Execute
        (Sequence [(Recorded [State.Failure, State.Running], 0)])).2).1
      = State.Running
    ∧ State.Running ≠ State.Success :=
  ⟨rfl, rfl, by decide⟩

/-- C5 (amended): a serial composite whose previous `Execute` returned
its exhaustion outcome — Success for Sequence, Failure for Selection —
has its cursor at the end of the child list, so the next `Execute`
without an intervening reset returns that same vacuous outcome and
leaves the composite unchanged.  (After the other terminal outcome the
cursor instead stays at the terminating child, which is re-executed.) -/
theorem serial_stale_cursor (σ : Type) (c : composite σ) :
    ((sequence.Execute c).1 = State.Success →
      sequence.Execute (sequence.Execute c).2 = (State.Success, (sequence.Execute c).2))
    ∧ ((selection.Execute c).1 = State.Failure →
      selection.Execute (selection.Execute c).2 = (State.Failure, (selection.Execute c).2)) := by
  constructor
  · intro h
    obtain ⟨h1, h2, -, -⟩ := sequence_execute_characterization σ c
    apply sequence_Execute_of_le
    have hadv : seqAdv (resps (c.nodes.drop c.index)) = (resps (c.nodes.drop c.index)).length :=
      seqFold_success _ (h1 ▸ h)
    have hlen : (resps (c.nodes.drop c.index)).length = c.nodes.length - c.index := by
      simp [resps, List.length_drop]
    rw [sequence_Execute_length, h2, hadv, hlen]
    omega
  · intro h
    obtain ⟨h1, h2, -, -⟩ := selection_execute_characterization σ c
    apply selection_Execute_of_le
    have hadv : selAdv (resps (c.nodes.drop c.index)) = (resps (c.nodes.drop c.index)).length :=
      selFold_failure _ (h1 ▸ h)
    have hlen : (resps (c.nodes.drop c.index)).length = c.nodes.length - c.index := by
      simp [resps, List.length_drop]
    rw [selection_Execute_length, h2, hadv, hlen]
    omega

/-- Witness for the amended C5, at concrete empty composites. -/
theorem serial_stale_cursor_witness :
    sequence.Execute (sequence.Execute (Sequence ([] : List (Behavior Nat × Nat)))).2
      = (State.Success, (sequence.Execute (Sequence ([] : List (Behavior Nat × Nat)))).2)
    ∧ selection.Execute (selection.Execute (Selection ([] : List (Behavior Nat × Nat)))).2
      = (State.Failure, (selection.Execute (Selection ([] : List (Behavior Nat × Nat)))).2) :=
  ⟨(serial_stale_cursor Nat (Sequence [])).1 rfl,
   (serial_stale_cursor Nat (Selection [])).2 rfl⟩

/-- An interleaving of `Execute` and `Reset` calls on one serial
composite (`isSeq` selects Sequence or Selection semantics). -/
inductive SOp where
  | tick
  | reset

/-- Execute of the serial composite selected by `isSeq`. -/
def sExec (isSeq : Bool) (c : composite σ) : State × composite σ :=
  if isSeq then sequence.Execute c else selection.Execute c

/-- Apply a list of operations to a serial composite in order. -/
def srun (isSeq : Bool) : composite σ → List SOp → composite σ
  | c, [] => c
  | c, SOp.tick :: ops => srun isSeq (sExec isSeq c).2 ops
  | c, SOp.reset :: ops => srun isSeq (composite.Reset c) ops

theorem sExec_index_mono (isSeq : Bool) (c : composite σ) :
    c.index ≤ (sExec isSeq c).2.index := by
  cases isSeq
  · obtain ⟨-, h2, -, -⟩ := selection_execute_characterization σ c
    simp [sExec, h2]
  · obtain ⟨-, h2, -, -⟩ := sequence_execute_characterization σ c
    simp [sExec, h2]

theorem sExec_index_le (isSeq : Bool) (c : composite σ)
    (h : c.index ≤ c.nodes.length) :
    (sExec isSeq c).2.index ≤ (sExec isSeq c).2.nodes.length := by
  cases isSeq
  · obtain ⟨-, h2, -, -⟩ := selection_execute_characterization σ c
    have hb := selAdv_le (resps (c.nodes.drop c.index))
    have hlen : (resps (c.nodes.drop c.index)).length = c.nodes.length - c.index := by
      simp [resps, List.length_drop]
    simp only [sExec, Bool.false_eq_true, if_false, h2, selection_Execute_length]
    omega
  · obtain ⟨-, h2, -, -⟩ := sequence_execute_characterization σ c
    have hb := seqAdv_le (resps (c.nodes.drop c.index))
    have hlen : (resps (c.nodes.drop c.index)).length = c.nodes.length - c.index := by
      simp [resps, List.length_drop]
    simp only [sExec, if_true, h2, sequence_Execute_length]
    omega

theorem srun_invariant (isSeq : Bool) (ops : List SOp) (c : composite σ)
    (h : c.index ≤ c.nodes.length) :
    (srun isSeq c ops).index ≤ (srun isSeq c ops).nodes.length := by
  induction ops generalizing c with
  | nil => exact h
  | cons op ops ih =>
    cases op
    · exact ih _ (sExec_index_le isSeq c h)
    · exact ih _ (Nat.zero_le _)

/-- C8: under every interleaving of `Execute` and `Reset` calls starting
from construction, a serial composite's cursor stays within
`[0, len(children)]` (the lower bound being inherent to `Nat`); each
`Execute` call leaves the cursor at or above its previous value; and
`Reset` sets the cursor to 0 and resets every child. -/
theorem serial_cursor_invariants (σ : Type) (nodes0 : List (Behavior σ × σ))
    (isSeq : Bool) (ops : List SOp) :
    (srun isSeq (⟨nodes0, 0⟩ : composite σ) ops).index
        ≤ (srun isSeq (⟨nodes0, 0⟩ : composite σ) ops).nodes.length
    ∧ (∀ c : composite σ, c.index ≤ (sExec isSeq c).2.index)
    ∧ (∀ c : composite σ, (composite.Reset c).index = 0
        ∧ (composite.Reset c).nodes = c.nodes.map fun p => (p.1, p.1.reset p.2)) :=
  ⟨srun_invariant isSeq ops _ (Nat.zero_le _),
   fun c => sExec_index_mono isSeq c,
   fun _ => ⟨rfl, rfl⟩⟩

/-! ## Specification-level descriptions of the parallel composites

These functions transcribe the prose of spec §4.3.  `passInput` records,
for each child in index order, whether it is already completed and the
outcome it would report this tick; the pass functions below describe the
result of the tick, which children get invoked, and which indices get
added to the completed set. -/

/-- For each child in order (the first having index `i`): is it already
in the completed set, and what outcome would its `Execute` report. -/
def passInput (complete : List Nat) (i : Nat) :
    List (Behavior σ × σ) → List (Bool × State)
  | [] => []
  | (b, s) :: rest =>
    (decide (i ∈ complete), (b.exec s).1) :: passInput complete (i + 1) rest

/-- Spec §4.3 (PSequence): one pass skips completed children, continues
past Success and Running (remembering a Running), aborts with
Failure/Unknown, and otherwise returns Running if anything ran this tick
and Success if not. -/
def ppassSpec : List (Bool × State) → Bool → State
  | [], running => if running then State.Running else State.Success
  | (true, _) :: rest, running => ppassSpec rest running
  | (false, State.Success) :: rest, running => ppassSpec rest running
  | (false, State.Running) :: rest, _ => ppassSpec rest true
  | (false, State.Failure) :: _, _ => State.Failure
  | (false, State.Unknown) :: _, _ => State.Unknown

/-- Spec §4.3 (PSequence): which children one pass invokes — every
not-yet-completed child in index order, except those after an aborting
Failure/Unknown child, which are not executed that tick. -/
def pinvoked : List (Bool × State) → List Bool
  | [] => []
  | (true, _) :: rest => false :: pinvoked rest
  | (false, State.Success) :: rest => true :: pinvoked rest
  | (false, State.Running) :: rest => true :: pinvoked rest
  | (false, State.Failure) :: rest => true :: rest.map fun _ => false
  | (false, State.Unknown) :: rest => true :: rest.map fun _ => false

/-- Spec §4.3 (PSequence): the indices one pass adds to the completed
set (children that report Success before any abort), the first child
having index `i`; most recently added first. -/
def pnewComplete : List (Bool × State) → Nat → List Nat
  | [], _ => []
  | (true, _) :: rest, i => pnewComplete rest (i + 1)
  | (false, State.Success) :: rest, i => pnewComplete rest (i + 1) ++ [i]
  | (false, State.Running) :: rest, i => pnewComplete rest (i + 1)
  | (false, State.Failure) :: _, _ => []
  | (false, State.Unknown) :: _, _ => []

/-- Spec §4.3 (PSelection): dual of `pinvoked` — Failure marks
completion and continues, Success/Unknown abort the pass. -/
def pinvokedSel : List (Bool × State) → List Bool
  | [] => []
  | (true, _) :: rest => false :: pinvokedSel rest
  | (false, State.Failure) :: rest => true :: pinvokedSel rest
  | (false, State.Running) :: rest => true :: pinvokedSel rest
  | (false, State.Success) :: rest => true :: rest.map fun _ => false
  | (false, State.Unknown) :: rest => true :: rest.map fun _ => false

/-- Spec §4.3 (PSelection): dual of `pnewComplete` — the indices of
children reporting Failure before any abort. -/
def pnewCompleteSel : List (Bool × State) → Nat → List Nat
  | [], _ => []
  | (true, _) :: rest, i => pnewCompleteSel rest (i + 1)
  | (false, State.Failure) :: rest, i => pnewCompleteSel rest (i + 1) ++ [i]
  | (false, State.Running) :: rest, i => pnewCompleteSel rest (i + 1)
  | (false, State.Success) :: _, _ => []
  | (false, State.Unknown) :: _, _ => []

theorem passInput_cons_gt (complete : List Nat) (i : Nat)
    (l : List (Behavior σ × σ)) :
    ∀ k, i < k → passInput (i :: complete) k l = passInput complete k l := by
  induction l with
  | nil => intro k hk; rfl
  | cons hd tl ih =>
    intro k hk
    obtain ⟨b, s⟩ := hd
    have hk' : (k ∈ i :: complete) ↔ (k ∈ complete) := by
      rw [List.mem_cons]
      constructor
      · rintro (rfl | hh)
        · omega
        · exact hh
      · exact Or.inr
    simp only [passInput, ih (k + 1) (by omega)]
    rw [decide_eq_decide.mpr hk']

theorem passInput_getElem? (complete : List Nat) (l : List (Behavior σ × σ)) :
    ∀ i j, (passInput complete i l)[j]? =
      (l[j]?).map fun p => (decide ((i + j) ∈ complete), (p.1.exec p.2).1) := by
  induction l with
  | nil => intro i j; simp [passInput]
  | cons hd tl ih =>
    intro i j
    obtain ⟨b, s⟩ := hd
    match j with
    | 0 => simp [passInput]
    | j + 1 =>
      simp only [passInput, List.getElem?_cons_succ, ih (i + 1) j]
      have : i + 1 + j = i + (j + 1) := by omega
      rw [this]

theorem map_const_false_getD (l : List α) (p : Nat) :
    ((l.map fun _ => false)[p]?).getD false = false := by
  cases h : l[p]? <;> simp [List.getElem?_map, h]

theorem pinvoked_length (inp : List (Bool × State)) :
    (pinvoked inp).length = inp.length := by
  induction inp with
  | nil => rfl
  | cons hd tl ih =>
    obtain ⟨fl, st⟩ := hd
    cases fl <;> cases st <;> simp [pinvoked, ih]

theorem pinvokedSel_length (inp : List (Bool × State)) :
    (pinvokedSel inp).length = inp.length := by
  induction inp with
  | nil => rfl
  | cons hd tl ih =>
    obtain ⟨fl, st⟩ := hd
    cases fl <;> cases st <;> simp [pinvokedSel, ih]

theorem pinvoked_flag_true (inp : List (Bool × State)) :
    ∀ (j : Nat) (r : State), inp[j]? = some (true, r) →
      ((pinvoked inp)[j]?).getD false = false := by
  induction inp with
  | nil => intro j r h; simp at h
  | cons hd tl ih =>
    intro j r h
    obtain ⟨fl, st⟩ := hd
    match j with
    | 0 =>
      simp only [List.getElem?_cons_zero, Option.some_inj, Prod.mk.injEq] at h
      rcases h with ⟨hfl, -⟩
      subst hfl
      simp [pinvoked]
    | j + 1 =>
      simp only [List.getElem?_cons_succ] at h
      cases fl <;> cases st <;>
        simp [pinvoked, ih j r h, map_const_false_getD]

theorem pinvokedSel_flag_true (inp : List (Bool × State)) :
    ∀ (j : Nat) (r : State), inp[j]? = some (true, r) →
      ((pinvokedSel inp)[j]?).getD false = false := by
  induction inp with
  | nil => intro j r h; simp at h
  | cons hd tl ih =>
    intro j r h
    obtain ⟨fl, st⟩ := hd
    match j with
    | 0 =>
      simp only [List.getElem?_cons_zero, Option.some_inj, Prod.mk.injEq] at h
      rcases h with ⟨hfl, -⟩
      subst hfl
      simp [pinvokedSel]
    | j + 1 =>
      simp only [List.getElem?_cons_succ] at h
      cases fl <;> cases st <;>
        simp [pinvokedSel, ih j r h, map_const_false_getD]

theorem pinvoked_success_mem (inp : List (Bool × State)) :
    ∀ i j, ((pinvoked inp)[j]?).getD false = true →
      inp[j]? = some (false, State.Success) → (i + j) ∈ pnewComplete inp i := by
  induction inp with
  | nil => intro i j h1 h2; simp at h2
  | cons hd tl ih =>
    intro i j h1 h2
    obtain ⟨fl, st⟩ := hd
    match j with
    | 0 =>
      simp only [List.getElem?_cons_zero, Option.some_inj, Prod.mk.injEq] at h2
      obtain ⟨hfl, hst⟩ := h2
      subst hfl
      subst hst
      simp [pnewComplete]
    | j + 1 =>
      simp only [List.getElem?_cons_succ] at h2
      have hsh : i + (j + 1) = (i + 1) + j := by omega
      rw [hsh]
      cases fl
      · cases st
        case Success =>
          simp only [pinvoked, List.getElem?_cons_succ] at h1
          simp only [pnewComplete]
          exact List.mem_append_left _ (ih (i + 1) j h1 h2)
        case Running =>
          simp only [pinvoked, List.getElem?_cons_succ] at h1
          simp only [pnewComplete]
          exact ih (i + 1) j h1 h2
        case Failure =>
          simp only [pinvoked, List.getElem?_cons_succ, map_const_false_getD] at h1
          exact Bool.noConfusion h1
        case Unknown =>
          simp only [pinvoked, List.getElem?_cons_succ, map_const_false_getD] at h1
          exact Bool.noConfusion h1
      · simp only [pinvoked, List.getElem?_cons_succ] at h1
        simp only [pnewComplete]
        exact ih (i + 1) j h1 h2

theorem pinvokedSel_failure_mem (inp : List (Bool × State)) :
    ∀ i j, ((pinvokedSel inp)[j]?).getD false = true →
      inp[j]? = some (false, State.Failure) → (i + j) ∈ pnewCompleteSel inp i := by
  induction inp with
  | nil => intro i j h1 h2; simp at h2
  | cons hd tl ih =>
    intro i j h1 h2
    obtain ⟨fl, st⟩ := hd
    match j with
    | 0 =>
      simp only [List.getElem?_cons_zero, Option.some_inj, Prod.mk.injEq] at h2
      obtain ⟨hfl, hst⟩ := h2
      subst hfl
      subst hst
      simp [pnewCompleteSel]
    | j + 1 =>
      simp only [List.getElem?_cons_succ] at h2
      have hsh : i + (j + 1) = (i + 1) + j := by omega
      rw [hsh]
      cases fl
      · cases st
        case Failure =>
          simp only [pinvokedSel, List.getElem?_cons_succ] at h1
          simp only [pnewCompleteSel]
          exact List.mem_append_left _ (ih (i + 1) j h1 h2)
        case Running =>
          simp only [pinvokedSel, List.getElem?_cons_succ] at h1
          simp only [pnewCompleteSel]
          exact ih (i + 1) j h1 h2
        case Success =>
          simp only [pinvokedSel, List.getElem?_cons_succ, map_const_false_getD] at h1
          exact Bool.noConfusion h1
        case Unknown =>
          simp only [pinvokedSel, List.getElem?_cons_succ, map_const_false_getD] at h1
          exact Bool.noConfusion h1
      · simp only [pinvokedSel, List.getElem?_cons_succ] at h1
        simp only [pnewCompleteSel]
        exact ih (i + 1) j h1 h2

theorem passInput_length (complete : List Nat) (l : List (Behavior σ × σ)) :
    ∀ i, (passInput complete i l).length = l.length := by
  induction l with
  | nil => intro i; rfl
  | cons hd tl ih =>
    intro i
    obtain ⟨b, s⟩ := hd
    simp [passInput, ih (i + 1)]

/-- Loop invariant of `psequence.go`: the outcome is `ppassSpec` of the
pass input, the completed set grows by exactly `pnewComplete` (the
Success children before any abort), the child count is preserved, and a
child's state is stepped once exactly when `pinvoked` says the pass
invokes it. -/
theorem psequence_go_spec (l : List (Behavior σ × σ)) :
    ∀ (complete : List Nat) (i : Nat) (running : Bool),
      (psequence.go l complete i running).1 = ppassSpec (passInput complete i l) running
      ∧ (psequence.go l complete i running).2.2
          = pnewComplete (passInput complete i l) i ++ complete
      ∧ (psequence.go l complete i running).2.1.length = l.length
      ∧ ∀ p : Nat, (psequence.go l complete i running).2.1[p]? =
          if ((pinvoked (passInput complete i l))[p]?).getD false
          then (l[p]?).map execUpdate else l[p]? := by
  induction l with
  | nil =>
    intro complete i running
    exact ⟨rfl, rfl, rfl, fun p => by simp [psequence.go, passInput, pinvoked]⟩
  | cons hd tl ih =>
    intro complete i running
    obtain ⟨b, s⟩ := hd
    by_cases hmem : i ∈ complete
    · obtain ⟨ih1, ih2, ih3, ih4⟩ := ih complete (i + 1) running
      have hgo : psequence.go ((b, s) :: tl) complete i running =
          ((psequence.go tl complete (i + 1) running).1,
            (b, s) :: (psequence.go tl complete (i + 1) running).2.1,
            (psequence.go tl complete (i + 1) running).2.2) := by
        simp [psequence.go, hmem]
      have hinp : passInput complete i ((b, s) :: tl) =
          (true, (b.exec s).1) :: passInput complete (i + 1) tl := by
        simp [passInput, hmem]
      refine ⟨?_, ?_, ?_, ?_⟩
      · rw [hgo, hinp]; simp [ppassSpec, ih1]
      · rw [hgo, hinp]; simp [pnewComplete, ih2]
      · rw [hgo]; simp [ih3]
      · intro p
        rw [hgo, hinp]
        match p with
        | 0 => simp [pinvoked]
        | p + 1 =>
          simp only [pinvoked, List.getElem?_cons_succ]
          exact ih4 p
    · rcases hx : b.exec s with ⟨st, s2⟩
      have hinp : passInput complete i ((b, s) :: tl) =
          (false, st) :: passInput complete (i + 1) tl := by
        simp [passInput, hmem, hx]
      cases st with
      | Success =>
        obtain ⟨ih1, ih2, ih3, ih4⟩ := ih (i :: complete) (i + 1) running
        have hpc : passInput (i :: complete) (i + 1) tl = passInput complete (i + 1) tl :=
          passInput_cons_gt complete i tl (i + 1) (by omega)
        rw [hpc] at ih1 ih2 ih4
        have hgo : psequence.go ((b, s) :: tl) complete i running =
            ((psequence.go tl (i :: complete) (i + 1) running).1,
              (b, s2) :: (psequence.go tl (i :: complete) (i + 1) running).2.1,
              (psequence.go tl (i :: complete) (i + 1) running).2.2) := by
          simp [psequence.go, hmem, hx]
        refine ⟨?_, ?_, ?_, ?_⟩
        · rw [hgo, hinp]; simp [ppassSpec, ih1]
        · rw [hgo, hinp]
          rw [ih2]
          simp [pnewComplete]
        · rw [hgo]; simp [ih3]
        · intro p
          rw [hgo, hinp]
          match p with
          | 0 => simp [pinvoked, execUpdate, hx]
          | p + 1 =>
            simp only [pinvoked, List.getElem?_cons_succ]
            exact ih4 p
      | Running =>
        obtain ⟨ih1, ih2, ih3, ih4⟩ := ih complete (i + 1) true
        have hgo : psequence.go ((b, s) :: tl) complete i running =
            ((psequence.go tl complete (i + 1) true).1,
              (b, s2) :: (psequence.go tl complete (i + 1) true).2.1,
              (psequence.go tl complete (i + 1) true).2.2) := by
          simp [psequence.go, hmem, hx]
        refine ⟨?_, ?_, ?_, ?_⟩
        · rw [hgo, hinp]; simp [ppassSpec, ih1]
        · rw [hgo, hinp]; simp [pnewComplete, ih2]
        · rw [hgo]; simp [ih3]
        · intro p
          rw [hgo, hinp]
          match p with
          | 0 => simp [pinvoked, execUpdate, hx]
          | p + 1 =>
            simp only [pinvoked, List.getElem?_cons_succ]
            exact ih4 p
      | Failure =>
        have hgo : psequence.go ((b, s) :: tl) complete i running =
            (State.Failure, (b, s2) :: tl, complete) := by
          simp [psequence.go, hmem, hx]
        refine ⟨?_, ?_, ?_, ?_⟩
        · rw [hgo, hinp]; simp [ppassSpec]
        · rw [hgo, hinp]; simp [pnewComplete]
        · rw [hgo]; simp
        · intro p
          rw [hgo, hinp]
          match p with
          | 0 => simp [pinvoked, execUpdate, hx]
          | p + 1 => simp [pinvoked, map_const_false_getD]
      | Unknown =>
        have hgo : psequence.go ((b, s) :: tl) complete i running =
            (State.Unknown, (b, s2) :: tl, complete) := by
          simp [psequence.go, hmem, hx]
        refine ⟨?_, ?_, ?_, ?_⟩
        · rw [hgo, hinp]; simp [ppassSpec]
        · rw [hgo, hinp]; simp [pnewComplete]
        · rw [hgo]; simp
        · intro p
          rw [hgo, hinp]
          match p with
          | 0 => simp [pinvoked, execUpdate, hx]
          | p + 1 => simp [pinvoked, map_const_false_getD]

/-- Loop invariant of `pselection.go`, dual to `psequence_go_spec`
(completion and pointwise clauses). -/
theorem pselection_go_spec (l : List (Behavior σ × σ)) :
    ∀ (complete : List Nat) (i : Nat) (running : Bool),
      (pselection.go l complete i running).2.2
          = pnewCompleteSel (passInput complete i l) i ++ complete
      ∧ (pselection.go l complete i running).2.1.length = l.length
      ∧ ∀ p : Nat, (pselection.go l complete i running).2.1[p]? =
          if ((pinvokedSel (passInput complete i l))[p]?).getD false
          then (l[p]?).map execUpdate else l[p]? := by
  induction l with
  | nil =>
    intro complete i running
    exact ⟨rfl, rfl, fun p => by simp [pselection.go, passInput, pinvokedSel]⟩
  | cons hd tl ih =>
    intro complete i running
    obtain ⟨b, s⟩ := hd
    by_cases hmem : i ∈ complete
    · obtain ⟨ih2, ih3, ih4⟩ := ih complete (i + 1) running
      have hgo : pselection.go ((b, s) :: tl) complete i running =
          ((pselection.go tl complete (i + 1) running).1,
            (b, s) :: (pselection.go tl complete (i + 1) running).2.1,
            (pselection.go tl complete (i + 1) running).2.2) := by
        simp [pselection.go, hmem]
      have hinp : passInput complete i ((b, s) :: tl) =
          (true, (b.exec s).1) :: passInput complete (i + 1) tl := by
        simp [passInput, hmem]
      refine ⟨?_, ?_, ?_⟩
      · rw [hgo, hinp]; simp [pnewCompleteSel, ih2]
      · rw [hgo]; simp [ih3]
      · intro p
        rw [hgo, hinp]
        match p with
        | 0 => simp [pinvokedSel]
        | p + 1 =>
          simp only [pinvokedSel, List.getElem?_cons_succ]
          exact ih4 p
    · rcases hx : b.exec s with ⟨st, s2⟩
      have hinp : passInput complete i ((b, s) :: tl) =
          (false, st) :: passInput complete (i + 1) tl := by
        simp [passInput, hmem, hx]
      cases st with
      | Failure =>
        obtain ⟨ih2, ih3, ih4⟩ := ih (i :: complete) (i + 1) running
        have hpc : passInput (i :: complete) (i + 1) tl = passInput complete (i + 1) tl :=
          passInput_cons_gt complete i tl (i + 1) (by omega)
        rw [hpc] at ih2 ih4
        have hgo : pselection.go ((b, s) :: tl) complete i running =
            ((pselection.go tl (i :: complete) (i + 1) running).1,
              (b, s2) :: (pselection.go tl (i :: complete) (i + 1) running).2.1,
              (pselection.go tl (i :: complete) (i + 1) running).2.2) := by
          simp [pselection.go, hmem, hx]
        refine ⟨?_, ?_, ?_⟩
        · rw [hgo, hinp]
          rw [ih2]
          simp [pnewCompleteSel]
        · rw [hgo]; simp [ih3]
        · intro p
          rw [hgo, hinp]
          match p with
          | 0 => simp [pinvokedSel, execUpdate, hx]
          | p + 1 =>
            simp only [pinvokedSel, List.getElem?_cons_succ]
            exact ih4 p
      | Running =>
        obtain ⟨ih2, ih3, ih4⟩ := ih complete (i + 1) true
        have hgo : pselection.go ((b, s) :: tl) complete i running =
            ((pselection.go tl complete (i + 1) true).1,
              (b, s2) :: (pselection.go tl complete (i + 1) true).2.1,
              (pselection.go tl complete (i + 1) true).2.2) := by
          simp [pselection.go, hmem, hx]
        refine ⟨?_, ?_, ?_⟩
        · rw [hgo, hinp]; simp [pnewCompleteSel, ih2]
        · rw [hgo]; simp [ih3]
        · intro p
          rw [hgo, hinp]
          match p with
          | 0 => simp [pinvokedSel, execUpdate, hx]
          | p + 1 =>
            simp only [pinvokedSel, List.getElem?_cons_succ]
            exact ih4 p
      | Success =>
        have hgo : pselection.go ((b, s) :: tl) complete i running =
            (State.Success, (b, s2) :: tl, complete) := by
          simp [pselection.go, hmem, hx]
        refine ⟨?_, ?_, ?_⟩
        · rw [hgo, hinp]; simp [pnewCompleteSel]
        · rw [hgo]; simp
        · intro p
          rw [hgo, hinp]
          match p with
          | 0 => simp [pinvokedSel, execUpdate, hx]
          | p + 1 => simp [pinvokedSel, map_const_false_getD]
      | Unknown =>
        have hgo : pselection.go ((b, s) :: tl) complete i running =
            (State.Unknown, (b, s2) :: tl, complete) := by
          simp [pselection.go, hmem, hx]
        refine ⟨?_, ?_, ?_⟩
        · rw [hgo, hinp]; simp [pnewCompleteSel]
        · rw [hgo]; simp
        · intro p
          rw [hgo, hinp]
          match p with
          | 0 => simp [pinvokedSel, execUpdate, hx]
          | p + 1 => simp [pinvokedSel, map_const_false_getD]

/-- C3: each `psequence.Execute` call makes exactly one pass over the
children in index order: every child not already in the completed set is
invoked exactly once — except those after an aborting child, which are
not executed that tick — a Success child's index is added to the
completed set (so it is skipped until reset), a Failure (resp. Unknown)
child makes the call return Failure (resp. Unknown) immediately, and a
completed pass returns Running if any child reported Running this tick
and Success otherwise.  Formalized through the spec-level pass functions
`ppassSpec` (the returned outcome), `pnewComplete` (the indices added to
the completed set) and `pinvoked` (which children get their state
stepped by exactly one `exec`, all others being untouched). -/
theorem psequence_execute_characterization (σ : Type) (c : pcomposite σ) :
    (psequence.Execute c).1 = ppassSpec (passInput c.complete 0 c.nodes) false
    ∧ (psequence.Execute c).2.complete
        = pnewComplete (passInput c.complete 0 c.nodes) 0 ++ c.complete
    ∧ ∀ j : Nat, (psequence.Execute c).2.nodes[j]? =
        if ((pinvoked (passInput c.complete 0 c.nodes))[j]?).getD false
        then (c.nodes[j]?).map execUpdate
        else c.nodes[j]? := by
  obtain ⟨h1, h2, h3, h4⟩ := psequence_go_spec c.nodes c.complete 0 false
  exact ⟨h1, h2, h4⟩

/-- C9: when a parallel composite's `Execute` aborts early — returning
Failure/Unknown for PSequence, Success/Unknown for PSelection — the
completed-set entries recorded earlier in that same pass (children that
reported Success, resp. Failure, before the abort) are retained rather
than rolled back, along with every previously completed entry; and any
completed child is skipped by `Execute` (its state untouched), so a
subsequent call without reset does not re-invoke those children. -/
theorem parallel_abort_retains_completion (σ : Type) :
    (∀ c : pcomposite σ,
      (((psequence.Execute c).1 = State.Failure ∨ (psequence.Execute c).1 = State.Unknown) →
        (∀ j : Nat, j ∈ c.complete → j ∈ (psequence.Execute c).2.complete)
        ∧ (∀ j : Nat,
            ((pinvoked (passInput c.complete 0 c.nodes))[j]?).getD false = true →
            (passInput c.complete 0 c.nodes)[j]? = some (false, State.Success) →
            j ∈ (psequence.Execute c).2.complete))
      ∧ (∀ j : Nat, j ∈ c.complete → (psequence.Execute c).2.nodes[j]? = c.nodes[j]?))
    ∧ (∀ c : pcomposite σ,
      (((pselection.Execute c).1 = State.Success ∨ (pselection.Execute c).1 = State.Unknown) →
        (∀ j : Nat, j ∈ c.complete → j ∈ (pselection.Execute c).2.complete)
        ∧ (∀ j : Nat,
            ((pinvokedSel (passInput c.complete 0 c.nodes))[j]?).getD false = true →
            (passInput c.complete 0 c.nodes)[j]? = some (false, State.Failure) →
            j ∈ (pselection.Execute c).2.complete))
      ∧ (∀ j : Nat, j ∈ c.complete → (pselection.Execute c).2.nodes[j]? = c.nodes[j]?)) := by
  constructor
  · intro c
    obtain ⟨h1, h2, h3, h4⟩ := psequence_go_spec c.nodes c.complete 0 false
    constructor
    · intro habort
      constructor
      · intro j hj
        show j ∈ (psequence.go c.nodes c.complete 0 false).2.2
        rw [h2]
        exact List.mem_append_right _ hj
      · intro j hi hs
        show j ∈ (psequence.go c.nodes c.complete 0 false).2.2
        rw [h2]
        apply List.mem_append_left
        have := pinvoked_success_mem (passInput c.complete 0 c.nodes) 0 j hi hs
        simpa using this
    · intro j hj
      show (psequence.go c.nodes c.complete 0 false).2.1[j]? = c.nodes[j]?
      rw [h4 j]
      cases hn : c.nodes[j]? with
      | none =>
        have hlen : c.nodes.length ≤ j := List.getElem?_eq_none_iff.mp hn
        have hpn : (pinvoked (passInput c.complete 0 c.nodes))[j]? = none := by
          apply List.getElem?_eq_none
          rw [pinvoked_length, passInput_length]
          exact hlen
        rw [hpn]
        simp
      | some p =>
        have hinp : (passInput c.complete 0 c.nodes)[j]? =
            some (true, (p.1.exec p.2).1) := by
          rw [passInput_getElem? c.complete c.nodes 0 j, hn]
          simp [hj]
        rw [pinvoked_flag_true _ j _ hinp]
        simp
  · intro c
    obtain ⟨h2, h3, h4⟩ := pselection_go_spec c.nodes c.complete 0 false
    constructor
    · intro habort
      constructor
      · intro j hj
        show j ∈ (pselection.go c.nodes c.complete 0 false).2.2
        rw [h2]
        exact List.mem_append_right _ hj
      · intro j hi hs
        show j ∈ (pselection.go c.nodes c.complete 0 false).2.2
        rw [h2]
        apply List.mem_append_left
        have := pinvokedSel_failure_mem (passInput c.complete 0 c.nodes) 0 j hi hs
        simpa using this
    · intro j hj
      show (pselection.go c.nodes c.complete 0 false).2.1[j]? = c.nodes[j]?
      rw [h4 j]
      cases hn : c.nodes[j]? with
      | none =>
        have hlen : c.nodes.length ≤ j := List.getElem?_eq_none_iff.mp hn
        have hpn : (pinvokedSel (passInput c.complete 0 c.nodes))[j]? = none := by
          apply List.getElem?_eq_none
          rw [pinvokedSel_length, passInput_length]
          exact hlen
        rw [hpn]
        simp
      | some p =>
        have hinp : (passInput c.complete 0 c.nodes)[j]? =
            some (true, (p.1.exec p.2).1) := by
          rw [passInput_getElem? c.complete c.nodes 0 j, hn]
          simp [hj]
        rw [pinvokedSel_flag_true _ j _ hinp]
        simp

/-- PSequence aborting on an Unknown second child after a Success first
child: used to witness the retention clauses of C9. -/
def c9a : pcomposite Nat :=
  PSequence [(Recorded [State.Success], 0), (Recorded [State.Unknown], 0)]

/-- A PSequence whose only child is already completed: witnesses the
skip clause of C9. -/
def c9b : pcomposite Nat :=
  { nodes := [(Recorded [State.Running], 0)], complete := [0] }

/-- PSelection aborting on an Unknown second child after a Failure first
child. -/
def c9c : pcomposite Nat :=
  PSelection [(Recorded [State.Failure], 0), (Recorded [State.Unknown], 0)]

/-- A PSelection whose only child is already completed. -/
def c9d : pcomposite Nat :=
  { nodes := [(Recorded [State.Running], 0)], complete := [0] }

/-- Witness for C9 at concrete composites: the Success child completed
before an Unknown abort stays completed, and an already-completed child
is untouched by the tick (dually for PSelection). -/
theorem parallel_abort_retains_completion_witness :
    (0 : Nat) ∈ (psequence.Execute c9a).2.complete
    ∧ (psequence.Execute c9b).2.nodes[0]? = c9b.nodes[0]?
    ∧ (0 : Nat) ∈ (pselection.Execute c9c).2.complete
    ∧ (pselection.Execute c9d).2.nodes[0]? = c9d.nodes[0]? :=
  ⟨(((parallel_abort_retains_completion Nat).1 c9a).1 (Or.inr rfl)).2 0 (by decide) (by decide),
   ((parallel_abort_retains_completion Nat).1 c9b).2 0 (by decide),
   (((parallel_abort_retains_completion Nat).2 c9c).1 (Or.inr rfl)).2 0 (by decide) (by decide),
   ((parallel_abort_retains_completion Nat).2 c9d).2 0 (by decide)⟩

/-- C4: every one of the six decorators passes an Unknown child outcome
through unchanged and does not reset the child.  Instrumenting an
arbitrary child with `testBehavior`: when the child's `Execute` yields
Unknown, each decorator returns Unknown with the child stepped exactly
once (call counter +1) and the reset counter untouched. -/
theorem decorators_unknown_passthrough (σ : Type) (b : Behavior σ) (s s' : σ)
    (c r : Nat) (h : b.exec s = (State.Unknown, s')) :
    (Invert (testBehavior b)).exec (s, c, r) = (State.Unknown, (s', c + 1, r))
    ∧ (Repeat (testBehavior b)).exec (s, c, r) = (State.Unknown, (s', c + 1, r))
    ∧ (ForceSuccess (testBehavior b)).exec (s, c, r) = (State.Unknown, (s', c + 1, r))
    ∧ (ForceFailure (testBehavior b)).exec (s, c, r) = (State.Unknown, (s', c + 1, r))
    ∧ (Until (testBehavior b)).exec (s, c, r) = (State.Unknown, (s', c + 1, r))
    ∧ (While (testBehavior b)).exec (s, c, r) = (State.Unknown, (s', c + 1, r)) := by
  refine ⟨?_, ?_, ?_, ?_, ?_, ?_⟩ <;>
    simp [Invert, Repeat, ForceSuccess, ForceFailure, Until, While, testBehavior, h]

/-- Witness for C4 at a concrete Unknown-producing child. -/
theorem decorators_unknown_passthrough_witness :
    (Invert (testBehavior (Recorded [State.Unknown]))).exec (0, 0, 0)
        = (State.Unknown, (1, 1, 0))
    ∧ (Repeat (testBehavior (Recorded [State.Unknown]))).exec (0, 0, 0)
        = (State.Unknown, (1, 1, 0))
    ∧ (ForceSuccess (testBehavior (Recorded [State.Unknown]))).exec (0, 0, 0)
        = (State.Unknown, (1, 1, 0))
    ∧ (ForceFailure (testBehavior (Recorded [State.Unknown]))).exec (0, 0, 0)
        = (State.Unknown, (1, 1, 0))
    ∧ (Until (testBehavior (Recorded [State.Unknown]))).exec (0, 0, 0)
        = (State.Unknown, (1, 1, 0))
    ∧ (While (testBehavior (Recorded [State.Unknown]))).exec (0, 0, 0)
        = (State.Unknown, (1, 1, 0)) :=
  decorators_unknown_passthrough Nat (Recorded [State.Unknown]) 0 1 0 0 rfl

/-- C10: every decorator's `Execute` invokes the wrapped child's
`Execute` exactly once per call regardless of previous results — the
instrumented call counter increments by exactly one on every call, in
every branch — and Until's Success / While's Failure outcomes are not
latched: a further `Execute` without reset re-runs the child and
transforms its new result, shown concretely by
`Until(Recorded(Success, Failure))` returning Success then Running and
`While(Recorded(Failure, Success))` returning Failure then Running. -/
theorem decorator_single_invocation (σ : Type) (b : Behavior σ) (s : σ) (c r : Nat) :
    (((Invert (testBehavior b)).exec (s, c, r)).2.2.1 = c + 1)
    ∧ (((Repeat (testBehavior b)).exec (s, c, r)).2.2.1 = c + 1)
    ∧ (((ForceSuccess (testBehavior b)).exec (s, c, r)).2.2.1 = c + 1)
    ∧ (((ForceFailure (testBehavior b)).exec (s, c, r)).2.2.1 = c + 1)
    ∧ (((Until (testBehavior b)).exec (s, c, r)).2.2.1 = c + 1)
    ∧ (((While (testBehavior b)).exec (s, c, r)).2.2.1 = c + 1)
    ∧ (run (Until (Recorded [State.Success, State.Failure])).exec 0 2).1
        = [State.Success, State.Running]
    ∧ (run (While (Recorded [State.Failure, State.Success])).exec 0 2).1
        = [State.Failure, State.Running] := by
  rcases hx : b.exec s with ⟨st, s2⟩
  refine ⟨?_, ?_, ?_, ?_, ?_, ?_, rfl, rfl⟩ <;>
    cases st <;>
      simp [Invert, Repeat, ForceSuccess, ForceFailure, Until, While, testBehavior, hx]

/-- The tree of C7: `Repeat(Recorded(Running, Failure, Success,
Unknown))`, the child instrumented with a reset counter as in the
repository's own test. -/
def c7root : Behavior (Nat × Nat × Nat) :=
  Repeat (testBehavior (Recorded [State.Running, State.Failure, State.Success, State.Unknown]))

/-- C7: `Repeat(Recorded(Running, Failure, Success, Unknown))` ticked
four times yields [Running, Running, Running, Unknown], and the wrapped
child is reset exactly twice over those four ticks: the reset counter is
0 after the first tick (child Running), 1 after the second (child
Failure), 2 after the third (child Success), and still 2 after the
fourth (child Unknown) — never after Running or Unknown. -/
theorem repeat_recorded_scenario :
    (run c7root.exec (0, 0, 0) 4).1
      = [State.Running, State.Running, State.Running, State.Unknown]
    ∧ (run c7root.exec (0, 0, 0) 1).2.2.2 = 0
    ∧ (run c7root.exec (0, 0, 0) 2).2.2.2 = 1
    ∧ (run c7root.exec (0, 0, 0) 3).2.2.2 = 2
    ∧ (run c7root.exec (0, 0, 0) 4).2.2.2 = 2 :=
  ⟨rfl, rfl, rfl, rfl, rfl⟩

/-- The tree of C6: `Selection(Recorded(Running, Failure),
Recorded(Failure), Recorded(Unknown), Recorded(Success))`. -/
def c6tree : composite Nat :=
  Selection [(Recorded [State.Running, State.Failure], 0), (Recorded [State.Failure], 0),
    (Recorded [State.Unknown], 0), (Recorded [State.Success], 0)]

/-- C6 counterexample: the claimed tree ticked three times actually
yields [Running, Unknown, Unknown], not [Running, Running, Unknown]: on
the second tick the first child's Failure and the second child's Failure
advance the cursor to the Unknown child within the same tick, and the
third tick re-executes that child. -/
theorem selection_recorded_counterexample :
    (run selection.Execute c6tree 3).1
      = [State.Running, State.Unknown, State.Unknown]
    ∧ [State.Running, State.Unknown, State.Unknown]
      ≠ [State.Running, State.Running, State.Unknown] :=
  ⟨rfl, by decide⟩

/-- C6 (amended): the tree `Selection(Recorded(Running, Failure),
Recorded(Failure), Recorded(Unknown), Recorded(Success))` ticked three
times yields exactly [Running, Unknown, Unknown], and the final
Success-producing child is never executed (its call counter stays 0). -/
theorem selection_recorded_scenario :
    (run selection.Execute c6tree 3).1
      = [State.Running, State.Unknown, State.Unknown]
    ∧ ((run selection.Execute c6tree 3).2.nodes[3]?).map Prod.snd = some 0 :=
  ⟨rfl, rfl⟩

end bt
